import Mathlib

set_option linter.all false

/-!
Shallow embedding of `src/util.js` from node-mozdevice: the revision
resolution pipeline (Gecko and Gaia), its three streaming scanners
(zip archive entry extraction, XML attribute scan, INI line scan), the
two-location fallback pulls, and the process-wide revision cache.

JavaScript strings that are split or concatenated are modelled as
`List Char`; strings that are only compared or joined as paths stay
`String`.  A promise is modelled by its final settlement: the first call
to `resolve`/`reject` wins and later calls are no-ops; a promise on which
neither is ever invoked is `pending` (it hangs forever, which is how an
unhandled rejection inside a `new Promise` executor surfaces to callers).
-/

/-- Settlement state of a JavaScript promise: `resolved`/`rejected` record
the value of the first `resolve`/`reject` call, `pending` means neither is
ever called and the promise hangs forever. -/
inductive PromiseResult (ε α : Type) where
  | resolved (a : α)
  | rejected (e : ε)
  | pending
  deriving DecidableEq, Repr

/-- First-settle-wins: a second settlement attempt on an already settled
promise is a no-op. -/
def PromiseResult.orSettle {ε α : Type} :
    PromiseResult ε α → PromiseResult ε α → PromiseResult ε α
  | .pending, o => o
  | o, _ => o

/-- `s.split(c)` of JavaScript on a one-character separator, over the
`List Char` model: `"".split` is `[""]`, separators at either end produce
empty fragments. -/
def splitOnChar (c : Char) : List Char → List (List Char)
  | [] => [[]]
  | x :: xs =>
    if x = c then [] :: splitOnChar c xs
    else
      match splitOnChar c xs with
      | [] => [[x]]
      | l :: ls => (x :: l) :: ls

/-- `needle` occurs at the start of the second argument. -/
def startsWith : List Char → List Char → Bool
  | [], _ => true
  | _ :: _, [] => false
  | n :: ns, h :: hs => decide (n = h) && startsWith ns hs

/-- `hay.indexOf(needle) !== -1` of JavaScript: substring occurrence. -/
def containsSub (needle : List Char) : List Char → Bool
  | [] => needle.isEmpty
  | c :: cs => startsWith needle (c :: cs) || containsSub needle cs

/-- The key substring searched for by `getGeckoRevisionFromIni`
(src/util.js:100). -/
def stampKey : List Char := "SourceStamp".toList

/-- Body of the `.some` callback at src/util.js:99-107: a line not
containing `SourceStamp` is skipped; a matching line yields
`line.split('=')[1]` (which is JavaScript `undefined`, here `none`, when
the line has no `=`). -/
def scanLine (line : List Char) : Option (Option (List Char)) :=
  if containsSub stampKey line then some ((splitOnChar '=' line).get? 1)
  else none

/-- One `data` event of `getGeckoRevisionFromIni` (src/util.js:95-108):
the chunk alone is split into lines and the first matching line settles
the promise. -/
def scanChunk (chunk : List Char) : Option (Option (List Char)) :=
  (splitOnChar '\n' chunk).findSome? scanLine

/-- Embeds `getGeckoRevisionFromIni` (src/util.js:89-115).  The file
arrives as a list of `data` chunks, each processed independently; the
first chunk whose own line list contains `SourceStamp` resolves the
promise with `line.split('=')[1]`; the `end` handler rejects only when no
chunk ever matched (a falsy `sha` produced by a match cannot reject,
because the promise was already resolved first). -/
def getGeckoRevisionFromIni (iniPath : String) (chunks : List (List Char)) :
    PromiseResult String (Option (List Char)) :=
  match chunks.findSome? scanChunk with
  | some sha => .resolved sha
  | none => .rejected ("Unable to find revision in " ++ iniPath)

/-- `path.join(a, b)` for the separator-free path fragments used here. -/
def pathJoin (a b : String) : String := a ++ "/" ++ b

/-- One entry of a zip archive, modelled as its internal path and the
`data` chunks its content stream will emit. -/
structure ZipEntry where
  path : String
  chunks : List (List Char)
  deriving DecidableEq

/-- Mutable state of the `readFileFromZip` scan: the `fileFound` flag, the
settlement of the surrounding promise, and the entries drained via
`autodrain`. -/
structure ZipScanState where
  fileFound : Bool
  settled : PromiseResult String ZipEntry
  drained : List ZipEntry
  deriving DecidableEq

/-- One `entry` event of `readFileFromZip` (src/util.js:41-50): a
non-matching entry is autodrained; a matching entry sets `fileFound` and
resolves the promise (a no-op if it is already settled). -/
def zipStep (filePath : String) (s : ZipScanState) (entry : ZipEntry) :
    ZipScanState :=
  if entry.path ≠ filePath then { s with drained := s.drained ++ [entry] }
  else { s with fileFound := true,
                settled := s.settled.orSettle (.resolved entry) }

/-- The `close` event of `readFileFromZip` (src/util.js:36-40): reject
with `Zip file not found` when no entry ever matched. -/
def zipClose (s : ZipScanState) : ZipScanState :=
  if s.fileFound then s
  else { s with settled := s.settled.orSettle (.rejected "Zip file not found") }

/-- Embeds `readFileFromZip` (src/util.js:29-52): the archive's entries
fire in order, then the stream closes. -/
def readFileFromZip (entries : List ZipEntry) (filePath : String) :
    ZipScanState :=
  zipClose (entries.foldl (zipStep filePath) ⟨false, .pending, []⟩)

/-- Internal path of the Gaia commit marker (src/util.js:20). -/
def gaiaCommitPath : String := "resources/gaia_commit.txt"

/-- Embeds `readGaiaCommit` (src/util.js:122-144).  The `.then` chain on
`readFileFromZip` installs no rejection handler, so when the zip scan
rejects (entry absent) the rejection is unobserved and the outer promise
never settles: that case is `.pending`.  On success, the first `data`
chunk of the entry stream resolves with its first line; a `close` with no
data rejects. -/
def readGaiaCommit (baseDir : String) (entries : List ZipEntry) :
    PromiseResult String (List Char) :=
  match (readFileFromZip entries gaiaCommitPath).settled with
  | .resolved entry =>
    match entry.chunks with
    | [] => .rejected ("Unable to find revision in "
        ++ pathJoin baseDir "application.zip")
    | chunk :: _ => .resolved ((splitOnChar '\n' chunk).headD [])
  | .rejected _ => .pending
  | .pending => .pending

/-- An XML element opened during the sax stream, as the `opentag` handler
sees it: its (uppercased) name and its attribute list. -/
structure XmlNode where
  name : String
  attributes : List (String × String)
  deriving DecidableEq

/-- JavaScript `node.attributes.KEY`: `none` models `undefined`. -/
def XmlNode.attr (n : XmlNode) (key : String) : Option String :=
  (n.attributes.find? (fun p => decide (p.1 = key))).map (fun p => p.2)

/-- The match condition of the `opentag` handler (src/util.js:66). -/
def isGeckoProject (n : XmlNode) : Bool :=
  decide (n.name = "PROJECT" ∧ n.attr "NAME" = some "gecko")

/-- Mutable state of `getGeckoRevisionFromXml`: the `sha` variable
(`none` models `undefined`) and the promise settlement. -/
structure XmlScanState where
  sha : Option String
  settled : PromiseResult String (Option String)
  deriving DecidableEq

/-- One `opentag` event (src/util.js:65-70): a matching element stores
its `REVISION` attribute (possibly `undefined`) into `sha` and resolves
the promise (a no-op if already settled). -/
def xmlStep (s : XmlScanState) (node : XmlNode) : XmlScanState :=
  if isGeckoProject node then
    { sha := node.attr "REVISION",
      settled := s.settled.orSettle (.resolved (node.attr "REVISION")) }
  else s

/-- JavaScript `!sha` for a possibly-undefined string: truthy exactly for
a present, non-empty string. -/
def jsFalsyStr : Option String → Bool
  | none => true
  | some s => decide (s = "")

/-- The `end` event (src/util.js:72-76): reject when `sha` is falsy — a
no-op when the promise already resolved. -/
def xmlEnd (xmlPath : String) (s : XmlScanState) : XmlScanState :=
  if jsFalsyStr s.sha then
    { s with settled :=
        (s.settled.orSettle (.rejected ("Unable to find revision in " ++ xmlPath))) }
  else s

/-- Embeds `getGeckoRevisionFromXml` (src/util.js:59-82): the opened
elements fire in document order, then the stream ends. -/
def getGeckoRevisionFromXml (xmlPath : String) (nodes : List XmlNode) :
    PromiseResult String (Option String) :=
  (xmlEnd xmlPath (nodes.foldl xmlStep ⟨none, .pending⟩)).settled

/-- The Location Fallback Resolver (spec §4.2): the nested
try-then-fall-back pattern of `pullApplicationZip` (src/util.js:286-300)
and `pullB2GIni` (src/util.js:306-324), generalized from the two-candidate
instances in the source to an ordered candidate list.  `retrieve` is the
`pullToTemp` stub; the result pairs the overall outcome (only the last
underlying error survives exhaustion) with the candidates attempted, in
order. -/
def resolveFirst {γ : Type} (retrieve : γ → Except String String) :
    List γ → Except (Option String) String × List γ
  | [] => (.error none, [])
  | c :: cs =>
    match retrieve c, cs with
    | .ok a, _ => (.ok a, [c])
    | .error e, [] => (.error (some e), [c])
    | .error _, c2 :: cs2 =>
      ((resolveFirst retrieve (c2 :: cs2)).1,
       c :: (resolveFirst retrieve (c2 :: cs2)).2)

/-- Embeds `Util.prototype.pullApplicationZip` (src/util.js:286-300): try
`/system/b2g/webapps/settings.gaiamobile.org` first, then
`/data/local/webapps/settings.gaiamobile.org`; each argument is the
outcome of the corresponding `pullToTemp` (its temp dir on success). -/
def pullApplicationZip (pullB2gSettings pullDataLocal : Except String String) :
    PromiseResult String String :=
  match pullB2gSettings with
  | .ok tempDir => .resolved tempDir
  | .error _ =>
    match pullDataLocal with
    | .ok tempDir => .resolved tempDir
    | .error e => .rejected e

/-- Lookup of a JavaScript identifier in a lexical scope, modelled as an
association list from variable names to string values; `none` models a
ReferenceError on evaluation. -/
def lookupVar (scope : List (String × String)) (x : String) : Option String :=
  (scope.find? (fun p => decide (p.1 = x))).map (fun p => p.2)

/-- The lexical scope enclosing the platform.ini fulfilled continuation of
`pullB2GIni` (src/util.js:319-321), restricted to string-valued bindings:
the continuation itself declares no parameter, and the enclosing function
bodies bind only `util`, `resolve` and `reject`.  In particular `tempDir`
— bound only as the parameter of the *application.ini* continuation at
src/util.js:314 — is absent. -/
def fallbackContinuationScope : List (String × String) := []

/-- Embeds `Util.prototype.pullB2GIni` (src/util.js:306-324): try
`application.ini` under `/system/b2g`, falling back to `platform.ini`.
The fallback's fulfilled continuation evaluates `tempDir` in
`fallbackContinuationScope`; the lookup fails, i.e. the continuation
throws a ReferenceError, which rejects only the unobserved promise derived
from the inner `.then`, so the outer promise never settles (`.pending`). -/
def pullB2GIni (appIni platformIni : Except String String) :
    PromiseResult String String :=
  match appIni with
  | .ok tempDir => .resolved (pathJoin tempDir "application.ini")
  | .error _ =>
    match platformIni with
    | .ok _ =>
      match lookupVar fallbackContinuationScope "tempDir" with
      | some tempDir => .resolved (pathJoin tempDir "platform.ini")
      | none => .pending
    | .error e => .rejected e

/-- Outcome of one cached-revision call: the promise the caller receives,
the cache cell after the call, and whether the device was contacted. -/
structure CachedCall (α : Type) where
  result : PromiseResult String α
  cacheAfter : Option α
  contactedDevice : Bool
  deriving DecidableEq

/-- The success-only cache write `promise.then(sha => cache = sha)`
(src/util.js:356-359 and 377-381). -/
def cacheUpdate {α : Type} (cache : Option α) :
    PromiseResult String α → Option α
  | .resolved sha => some sha
  | _ => cache

/-- A resolution that reaches the device: the caller gets the device
promise and the cache is written only on success. -/
def runDevice {α : Type} (cache : Option α)
    (deviceResolve : PromiseResult String α) : CachedCall α :=
  ⟨deviceResolve, cacheUpdate cache deviceResolve, true⟩

/-- The memoization pattern shared by `getGeckoRevision`
(src/util.js:331-333) and `getGaiaRevision` (src/util.js:369-371): the
cache cell is static on `Util` (process-scoped, not per instance), and the
hit test is JavaScript truthiness of its current value. -/
def getRevisionWithCache {α : Type} (truthy : α → Bool) (cache : Option α)
    (deviceResolve : PromiseResult String α) : CachedCall α :=
  match cache with
  | some v =>
    if truthy v then ⟨.resolved v, some v, false⟩
    else runDevice cache deviceResolve
  | none => runDevice cache deviceResolve

/-- Truthiness of a Gaia revision value (a string). -/
def listTruthy (l : List Char) : Bool := !l.isEmpty

/-- Truthiness of a revision string, for the cache cells. -/
def strTruthy (s : String) : Bool := !(decide (s = ""))

/-- Truthiness of a Gecko revision value, which can itself be
`undefined` (src/util.js:104 with no `=`, src/util.js:67 with no
`REVISION` attribute). -/
def revTruthy : Option (List Char) → Bool
  | none => false
  | some l => !l.isEmpty

/-- Embeds `Util.prototype.getGaiaRevision` (src/util.js:368-384):
cache test, then `pullApplicationZip().then(readGaiaCommit)`; `entries`
are the contents of whichever `application.zip` was pulled. -/
def getGaiaRevision (cache : Option (List Char))
    (pullB2gSettings pullDataLocal : Except String String)
    (entries : List ZipEntry) : CachedCall (List Char) :=
  getRevisionWithCache listTruthy cache
    (match pullApplicationZip pullB2gSettings pullDataLocal with
     | .resolved baseDir => readGaiaCommit baseDir entries
     | .rejected e => .rejected e
     | .pending => .pending)

/-- The observable steps of the Gecko resolution, for stating which
sub-operations run and in which order. -/
inductive GeckoStep where
  | pullSourcesXml
  | runXmlScan
  | runIniFallback
  deriving DecidableEq

/-- Embeds the local `pullFromIni` of `getGeckoRevision`
(src/util.js:340-345): `pullB2GIni` followed by the INI Line Scanner on
the retrieved file; `fileChunks` gives the `data` chunks of a local
file. -/
def pullFromIni (appIni platformIni : Except String String)
    (fileChunks : String → List (List Char)) :
    PromiseResult String (Option (List Char)) :=
  match pullB2GIni appIni platformIni with
  | .resolved iniPath => getGeckoRevisionFromIni iniPath (fileChunks iniPath)
  | .rejected e => .rejected e
  | .pending => .pending

/-- Embeds the device-facing part of `Util.prototype.getGeckoRevision`
(src/util.js:339-353): pull `sources.xml` from `/system`; on success scan
it; if either the pull or the scan fails, run the INI fallback.  Returns
the settlement together with the trace of steps taken. -/
def geckoPipeline {α : Type} (xmlPull : Except String String)
    (xmlScan : String → PromiseResult String α)
    (iniFallback : PromiseResult String α) :
    PromiseResult String α × List GeckoStep :=
  match xmlPull with
  | .ok tempDir =>
    match xmlScan (pathJoin tempDir "sources.xml") with
    | .resolved sha => (.resolved sha, [.pullSourcesXml, .runXmlScan])
    | .rejected _ =>
      (iniFallback, [.pullSourcesXml, .runXmlScan, .runIniFallback])
    | .pending => (.pending, [.pullSourcesXml, .runXmlScan])
  | .error _ => (iniFallback, [.pullSourcesXml, .runIniFallback])

/-- JavaScript truthiness of the cache cell itself (`null` is falsy). -/
def cacheTruthy {α : Type} (truthy : α → Bool) : Option α → Bool
  | none => false
  | some v => truthy v

/-- Embeds `Util.prototype.getGeckoRevision` (src/util.js:330-362) in
full: cache consultation, the pipeline, and the success-only cache write;
on a cache hit no step runs. -/
def getGeckoRevision {α : Type} (truthy : α → Bool) (cache : Option α)
    (xmlPull : Except String String)
    (xmlScan : String → PromiseResult String α)
    (iniFallback : PromiseResult String α) :
    CachedCall α × List GeckoStep :=
  (getRevisionWithCache truthy cache
     (geckoPipeline xmlPull xmlScan iniFallback).1,
   if cacheTruthy truthy cache then []
   else (geckoPipeline xmlPull xmlScan iniFallback).2)

/-- `chunk` ends with the character `c`. -/
def endsChar (c : Char) : List Char → Bool
  | [] => false
  | [x] => decide (x = c)
  | _ :: x :: xs => endsChar c (x :: xs)

/-! ### Helper lemmas about `splitOnChar` and `findSome?` -/

theorem splitOnChar_ne_nil (c : Char) (s : List Char) : splitOnChar c s ≠ [] := by
  cases s with
  | nil => simp [splitOnChar]
  | cons x xs =>
    unfold splitOnChar
    by_cases hx : x = c
    · simp [hx]
    · rw [if_neg hx]
      cases splitOnChar c xs <;> simp

theorem endsChar_cons_cons (c x y : Char) (xs : List Char) :
    endsChar c (x :: y :: xs) = endsChar c (y :: xs) := rfl

theorem splitOnChar_cons_eq (c x : Char) (xs : List Char) (h : x = c) :
    splitOnChar c (x :: xs) = [] :: splitOnChar c xs := by
  rw [splitOnChar.eq_2, if_pos h]

theorem splitOnChar_cons_ne (c x : Char) (xs : List Char) (h : ¬x = c)
    (l : List Char) (ls : List (List Char))
    (hs : splitOnChar c xs = l :: ls) :
    splitOnChar c (x :: xs) = (x :: l) :: ls := by
  rw [splitOnChar.eq_2, if_neg h, hs]

theorem splitOnChar_length_two (c : Char) :
    ∀ (a : List Char), endsChar c a = true → 2 ≤ (splitOnChar c a).length := by
  intro a
  induction a with
  | nil => intro h; simp [endsChar] at h
  | cons x xs ih =>
    intro h
    cases xs with
    | nil =>
      have hx : x = c := by simpa [endsChar] using h
      simp [splitOnChar, hx]
    | cons y ys =>
      rw [endsChar_cons_cons] at h
      have h2 := ih h
      unfold splitOnChar
      by_cases hx : x = c
      · rw [if_pos hx]
        simp only [List.length_cons]
        omega
      · rw [if_neg hx]
        cases hs : splitOnChar c (y :: ys) with
        | nil => exact absurd hs (splitOnChar_ne_nil c _)
        | cons l ls =>
          rw [hs] at h2
          simpa using h2

theorem splitOnChar_append (c : Char) :
    ∀ (a b : List Char), endsChar c a = true →
      splitOnChar c (a ++ b) =
        (splitOnChar c a).dropLast ++ splitOnChar c b := by
  intro a
  induction a with
  | nil => intro b h; simp [endsChar] at h
  | cons x xs ih =>
    intro b h
    cases xs with
    | nil =>
      have hx : x = c := by simpa [endsChar] using h
      subst hx
      simp [splitOnChar]
    | cons y ys =>
      rw [endsChar_cons_cons] at h
      have hlen := splitOnChar_length_two c (y :: ys) h
      have hrec := ih b h
      cases hs : splitOnChar c (y :: ys) with
      | nil => exact absurd hs (splitOnChar_ne_nil c _)
      | cons l ls =>
        rw [hs] at hrec hlen
        cases ls with
        | nil => simp at hlen
        | cons m ms =>
          have hrec2 : splitOnChar c ((y :: ys) ++ b)
              = l :: ((m :: ms).dropLast ++ splitOnChar c b) := by
            rw [hrec]
            rfl
          show splitOnChar c (x :: ((y :: ys) ++ b)) = _
          by_cases hx : x = c
          · rw [splitOnChar_cons_eq c x _ hx, splitOnChar_cons_eq c x _ hx,
                hrec2, hs]
            rfl
          · rw [splitOnChar_cons_ne c x _ hx _ _ hrec2,
                splitOnChar_cons_ne c x _ hx _ _ hs]
            rfl

theorem splitOnChar_getLast (c : Char) :
    ∀ (a : List Char), endsChar c a = true →
      (splitOnChar c a).getLast? = some [] := by
  intro a
  induction a with
  | nil => intro h; simp [endsChar] at h
  | cons x xs ih =>
    intro h
    cases xs with
    | nil =>
      have hx : x = c := by simpa [endsChar] using h
      subst hx
      simp [splitOnChar]
    | cons y ys =>
      rw [endsChar_cons_cons] at h
      have h2 := ih h
      have hlen := splitOnChar_length_two c (y :: ys) h
      unfold splitOnChar
      by_cases hx : x = c
      · rw [if_pos hx]
        cases hs : splitOnChar c (y :: ys) with
        | nil => exact absurd hs (splitOnChar_ne_nil c _)
        | cons l ls =>
          rw [hs] at h2
          simpa [List.getLast?_cons_cons] using h2
      · rw [if_neg hx]
        cases hs : splitOnChar c (y :: ys) with
        | nil => exact absurd hs (splitOnChar_ne_nil c _)
        | cons l ls =>
          rw [hs] at h2 hlen
          cases ls with
          | nil => simp at hlen
          | cons m ms =>
            rw [List.getLast?_cons_cons] at h2 ⊢
            exact h2

theorem findSome_cons_some {α β : Type} (f : α → Option β) (a : α)
    (l : List α) (b : β) (h : f a = some b) :
    (a :: l).findSome? f = some b := by
  simp [List.findSome?_cons, h]

theorem findSome_cons_none {α β : Type} (f : α → Option β) (a : α)
    (l : List α) (h : f a = none) :
    (a :: l).findSome? f = l.findSome? f := by
  simp [List.findSome?_cons, h]

theorem findSome_singleton {α β : Type} (f : α → Option β) (x : α) :
    [x].findSome? f = f x := by
  cases hx : f x with
  | some b => exact findSome_cons_some f x [] b hx
  | none => rw [findSome_cons_none f x [] hx]; rfl

theorem findSome_dropLast_of_getLast {α β : Type} (f : α → Option β) :
    ∀ (L : List α) (x : α), L.getLast? = some x → f x = none →
      L.findSome? f = L.dropLast.findSome? f := by
  intro L
  induction L with
  | nil => intro x hx hfx; simp at hx
  | cons a t ih =>
    intro x hx hfx
    cases t with
    | nil =>
      simp at hx
      subst hx
      rw [findSome_singleton, hfx]
      rfl
    | cons b t2 =>
      rw [List.getLast?_cons_cons] at hx
      have hrec := ih x hx hfx
      rw [List.dropLast_cons₂]
      cases hfa : f a with
      | some v =>
        rw [findSome_cons_some f a _ v hfa, findSome_cons_some f a _ v hfa]
      | none =>
        rw [findSome_cons_none f a _ hfa, findSome_cons_none f a _ hfa, hrec]

theorem scanLine_nil : scanLine [] = none := rfl

theorem scanChunk_def (ch : List Char) :
    scanChunk ch = (splitOnChar '\n' ch).findSome? scanLine := rfl

/-- Core of the line-aligned chunking equivalence: when every non-final
chunk ends with a newline, scanning the chunks one at a time finds exactly
what scanning the accumulated content finds. -/
theorem chunkedEqWhole :
    ∀ (chunks : List (List Char)),
      (∀ ch ∈ chunks.dropLast, endsChar '\n' ch = true) →
      chunks.findSome? scanChunk = scanChunk chunks.flatten := by
  intro chunks
  induction chunks with
  | nil =>
    intro h
    show (none : Option (Option (List Char))) = scanChunk []
    rw [scanChunk_def]
    show none = List.findSome? scanLine [[]]
    rw [findSome_singleton, scanLine_nil]
  | cons c cs ih =>
    intro h
    cases cs with
    | nil =>
      rw [findSome_singleton]
      simp [List.flatten_cons]
    | cons c2 cs2 =>
      have hc : endsChar '\n' c = true := by
        apply h c
        rw [List.dropLast_cons₂]
        exact List.mem_cons_self c _
      have hrest : ∀ ch ∈ (c2 :: cs2).dropLast, endsChar '\n' ch = true := by
        intro ch hm
        apply h ch
        rw [List.dropLast_cons₂]
        exact List.mem_cons_of_mem c hm
      have ihr := ih hrest
      have hflat : (c :: c2 :: cs2).flatten = c ++ (c2 :: cs2).flatten :=
        List.flatten_cons
      rw [hflat, scanChunk_def, splitOnChar_append '\n' c _ hc,
          List.findSome?_append,
          ← findSome_dropLast_of_getLast scanLine (splitOnChar '\n' c) []
            (splitOnChar_getLast '\n' c hc) scanLine_nil,
          ← scanChunk_def, ← scanChunk_def, ← ihr]
      cases hsc : scanChunk c with
      | some b =>
        rw [findSome_cons_some scanChunk c _ b hsc]
        rfl
      | none =>
        rw [findSome_cons_none scanChunk c _ hsc]
        rfl

/-! ### Helper lemmas about the zip entry scan -/

theorem zipFold_after (t : String) :
    ∀ (xs : List ZipEntry) (e : ZipEntry) (d : List ZipEntry),
      xs.foldl (zipStep t) ⟨true, .resolved e, d⟩
        = ⟨true, .resolved e, d ++ xs.filter (fun x => decide (x.path ≠ t))⟩ := by
  intro xs
  induction xs with
  | nil => intro e d; simp
  | cons y ys ih =>
    intro e d
    rw [List.foldl_cons]
    by_cases hy : y.path ≠ t
    · have hstep : zipStep t ⟨true, .resolved e, d⟩ y = ⟨true, .resolved e, d ++ [y]⟩ := by
        simp [zipStep, hy]
      rw [hstep, ih]
      simp [List.filter_cons, hy]
    · have hstep : zipStep t ⟨true, .resolved e, d⟩ y = ⟨true, .resolved e, d⟩ := by
        simp [zipStep, hy, PromiseResult.orSettle]
      rw [hstep, ih]
      simp [List.filter_cons, hy]

theorem zipFold_noMatch (t : String) :
    ∀ (entries : List ZipEntry) (d : List ZipEntry),
      (∀ x ∈ entries, x.path ≠ t) →
      entries.foldl (zipStep t) ⟨false, .pending, d⟩ = ⟨false, .pending, d ++ entries⟩ := by
  intro entries
  induction entries with
  | nil => intro d h; simp
  | cons y ys ih =>
    intro d h
    have hy : y.path ≠ t := h y (List.mem_cons_self y ys)
    rw [List.foldl_cons]
    have hstep : zipStep t ⟨false, .pending, d⟩ y = ⟨false, .pending, d ++ [y]⟩ := by
      simp [zipStep, hy]
    rw [hstep, ih (d ++ [y]) (fun x hx => h x (List.mem_cons_of_mem y hx))]
    simp

theorem zipFold_found (t : String) :
    ∀ (entries : List ZipEntry) (e : ZipEntry) (d : List ZipEntry),
      entries.find? (fun x => decide (x.path = t)) = some e →
      entries.foldl (zipStep t) ⟨false, .pending, d⟩
        = ⟨true, .resolved e, d ++ entries.filter (fun x => decide (x.path ≠ t))⟩ := by
  intro entries
  induction entries with
  | nil => intro e d h; simp at h
  | cons y ys ih =>
    intro e d h
    rw [List.foldl_cons]
    by_cases hy : y.path = t
    · rw [List.find?_cons_of_pos _ (by simpa using hy)] at h
      have he : y = e := by simpa using h
      subst he
      have hstep : zipStep t ⟨false, .pending, d⟩ y = ⟨true, .resolved y, d⟩ := by
        simp [zipStep, hy, PromiseResult.orSettle]
      rw [hstep, zipFold_after t ys y d]
      simp [List.filter_cons, hy]
    · rw [List.find?_cons_of_neg _ (by simpa using hy)] at h
      have hstep : zipStep t ⟨false, .pending, d⟩ y = ⟨false, .pending, d ++ [y]⟩ := by
        simp [zipStep, hy]
      rw [hstep, ih e (d ++ [y]) h]
      simp [List.filter_cons, hy]

/-! ### Helper lemmas about the XML scan -/

theorem xmlFold_settled (v : Option String) :
    ∀ (nodes : List XmlNode) (s : XmlScanState), s.settled = .resolved v →
      (nodes.foldl xmlStep s).settled = .resolved v := by
  intro nodes
  induction nodes with
  | nil => intro s hs; simpa using hs
  | cons m ms ih =>
    intro s hs
    rw [List.foldl_cons]
    by_cases hm : isGeckoProject m
    · apply ih
      simp [xmlStep, hm, hs, PromiseResult.orSettle]
    · apply ih
      simp [xmlStep, hm, hs]

theorem xmlFold_noMatch :
    ∀ (nodes : List XmlNode), nodes.find? isGeckoProject = none →
      ∀ (s : XmlScanState), nodes.foldl xmlStep s = s := by
  intro nodes
  induction nodes with
  | nil => intro h s; rfl
  | cons m ms ih =>
    intro h s
    have hm : isGeckoProject m = false := by
      cases hb : isGeckoProject m
      · rfl
      · rw [List.find?_cons_of_pos _ hb] at h; simp at h
    rw [List.find?_cons_of_neg _ (by simp [hm])] at h
    rw [List.foldl_cons]
    have hstep : xmlStep s m = s := by simp [xmlStep, hm]
    rw [hstep, ih h]

theorem xmlFold_found :
    ∀ (nodes : List XmlNode) (n : XmlNode),
      nodes.find? isGeckoProject = some n →
      ∀ (s : XmlScanState), s.settled = .pending →
        (nodes.foldl xmlStep s).settled = .resolved (n.attr "REVISION") := by
  intro nodes
  induction nodes with
  | nil => intro n h; simp at h
  | cons m ms ih =>
    intro n h s hs
    rw [List.foldl_cons]
    by_cases hm : isGeckoProject m
    · rw [List.find?_cons_of_pos _ hm] at h
      have hn : m = n := by simpa using h
      subst hn
      apply xmlFold_settled
      simp [xmlStep, hm, hs, PromiseResult.orSettle]
    · rw [List.find?_cons_of_neg _ (by simpa using hm)] at h
      have hstep : xmlStep s m = s := by
        simp [xmlStep, hm]
      rw [hstep]
      exact ih n h s hs

/-! ### Helper lemma for the fallback resolver -/

theorem resolveFirstAllFail {γ : Type} (retrieve : γ → Except String String) :
    ∀ (rest : List γ) (c0 : γ),
      (∀ c ∈ c0 :: rest, ∃ e, retrieve c = .error e) →
      (resolveFirst retrieve (c0 :: rest)).2 = c0 :: rest
      ∧ ∀ cl el, (c0 :: rest).getLast? = some cl → retrieve cl = .error el →
          (resolveFirst retrieve (c0 :: rest)).1 = .error (some el) := by
  intro rest
  induction rest with
  | nil =>
    intro c0 h
    obtain ⟨e, he⟩ := h c0 (List.mem_cons_self c0 [])
    constructor
    · simp [resolveFirst, he]
    · intro cl el hcl hel
      have hcc : c0 = cl := by simpa using hcl
      subst hcc
      rw [he] at hel
      have : el = e := by simpa using hel.symm
      subst this
      simp [resolveFirst, he]
  | cons c1 rest2 ih =>
    intro c0 h
    obtain ⟨e0, he0⟩ := h c0 (List.mem_cons_self c0 _)
    have htail := ih c1 (fun c hc => h c (List.mem_cons_of_mem c0 hc))
    have hfold : resolveFirst retrieve (c0 :: c1 :: rest2)
        = ((resolveFirst retrieve (c1 :: rest2)).1,
           c0 :: (resolveFirst retrieve (c1 :: rest2)).2) := by
      simp [resolveFirst, he0]
    constructor
    · rw [hfold]
      simpa using htail.1
    · intro cl el hcl hel
      rw [List.getLast?_cons_cons] at hcl
      rw [hfold]
      exact htail.2 cl el hcl hel

/-! ### Remaining small helpers -/

theorem findSome_guard {α β : Type} (p : α → Bool) (f : α → β) :
    ∀ (l : List α),
      l.findSome? (fun x => if p x then some (f x) else none)
        = (l.find? p).map f := by
  intro l
  induction l with
  | nil => rfl
  | cons x xs ih =>
    by_cases hx : p x
    · rw [findSome_cons_some _ x xs (f x) (by simp [hx]),
          List.find?_cons_of_pos _ hx]
      rfl
    · rw [findSome_cons_none _ x xs (by simp [hx]),
          List.find?_cons_of_neg _ (by simpa using hx), ih]

theorem scanChunk_eq_find (ch : List Char) :
    scanChunk ch
      = ((splitOnChar '\n' ch).find? (containsSub stampKey)).map
          (fun l => (splitOnChar '=' l).get? 1) := by
  rw [scanChunk_def]
  have hsl : scanLine = fun line =>
      if containsSub stampKey line then some ((splitOnChar '=' line).get? 1)
      else none := rfl
  rw [hsl, findSome_guard]

theorem xmlEnd_resolved (xmlPath : String) (s : XmlScanState)
    (v : Option String) (h : s.settled = .resolved v) :
    (xmlEnd xmlPath s).settled = .resolved v := by
  unfold xmlEnd
  by_cases hf : jsFalsyStr s.sha
  · simp [hf, h, PromiseResult.orSettle]
  · simp [hf, h]

/-! ### Claim theorems -/

/-- Claim C1: the claim states that EVERY failure in the Gaia resolution
chain yields a caller-visible failed result.  The code violates this for
the missing-entry failure: when both pulls are fine but the retrieved
archive lacks `resources/gaia_commit.txt`, the inner rejection is
unhandled and `getGaiaRevision` never settles (first conjunct), though the
cache is indeed left unpopulated (second conjunct).  The other two failure
modes — both pull locations failing, and an entry stream that closes
before any data — do reject as claimed (third and fourth conjuncts). -/
theorem C1_gaia_failure_modes :
    (getGaiaRevision none (.ok "/tmp/raptor-temp") (.error "pull failed")
        [ZipEntry.mk "index.html" [[]]]).result = .pending
    ∧ (getGaiaRevision none (.ok "/tmp/raptor-temp") (.error "pull failed")
        [ZipEntry.mk "index.html" [[]]]).cacheAfter = none
    ∧ (getGaiaRevision none (.error "e1") (.error "e2") []).result
        = .rejected "e2"
    ∧ (getGaiaRevision none (.ok "/tmp/raptor-temp") (.error "x")
        [ZipEntry.mk "resources/gaia_commit.txt" []]).result
        = .rejected "Unable to find revision in /tmp/raptor-temp/application.zip" :=
  ⟨rfl, rfl, rfl, rfl⟩

/-- Claim C2: the claim states that when the application.ini pull fails
and the platform.ini pull succeeds, `pullB2GIni` resolves with the local
platform.ini path and the INI Line Scanner then runs on it.  The code
violates this: the fallback continuation evaluates the out-of-scope
variable `tempDir`, so the promise never settles, and the scanner never
runs (the composed `pullFromIni` is also pending, even on a file whose
content would match). -/
theorem C2_platform_ini_fallback_hangs :
    pullB2GIni (.error "application.ini pull failed") (.ok "/tmp/raptor-temp")
      = .pending
    ∧ pullFromIni (.error "application.ini pull failed") (.ok "/tmp/raptor-temp")
        (fun _ => ["SourceStamp=abc".toList]) = .pending :=
  ⟨rfl, rfl⟩

/-- Claim C3 (counterexample): on the matching line `SourceStamp=a=b` the
INI Line Scanner returns `a` — the field between the first and second
`=` — not everything after the first `=` (`a=b`). -/
theorem C3_counterexample :
    getGeckoRevisionFromIni "/tmp/application.ini" ["SourceStamp=a=b".toList]
      = .resolved (some ("a".toList))
    ∧ ("a".toList : List Char) ≠ "a=b".toList :=
  ⟨rfl, by decide⟩

/-- Claim C3 (amended): for every file content, the INI Line Scanner takes
the first line containing the key substring, splits it on `=`, and returns
the SECOND FIELD of that split (the portion strictly between the first and
second `=`; `none`, i.e. undefined, when the line has no `=`). -/
theorem C3_second_field (iniPath : String) (content l : List Char)
    (h : (splitOnChar '\n' content).find? (containsSub stampKey) = some l) :
    getGeckoRevisionFromIni iniPath [content]
      = .resolved ((splitOnChar '=' l).get? 1) := by
  have h1 : ([content] : List (List Char)).findSome? scanChunk
      = some ((splitOnChar '=' l).get? 1) := by
    rw [findSome_singleton, scanChunk_eq_find, h]
    rfl
  unfold getGeckoRevisionFromIni
  rw [h1]

theorem C3_second_field_witness :
    getGeckoRevisionFromIni "/tmp/application.ini"
        ["FOO=1\nSourceStamp=abc".toList]
      = .resolved ((splitOnChar '=' ("SourceStamp=abc".toList)).get? 1) :=
  C3_second_field "/tmp/application.ini" _ _ (by decide)

/-- Claim C4 (counterexample): a resolution that succeeds with the empty
revision string populates the cache cell, yet the next request for that
kind contacts the device again (and surfaces its failure), because the
cache-hit test is JavaScript truthiness and `""` is falsy. -/
theorem C4_counterexample :
    (getRevisionWithCache strTruthy none (.resolved "")).cacheAfter = some ""
    ∧ (getRevisionWithCache strTruthy (some "")
        (.rejected "device unreachable")).contactedDevice = true
    ∧ (getRevisionWithCache strTruthy (some "")
        (.rejected "device unreachable")).result
        = .rejected "device unreachable" :=
  ⟨rfl, rfl, rfl⟩

/-- Claim C4 (amended): for every TRUTHY (non-empty) resolved revision
string, once a resolution has succeeded and populated the process-scoped
cache, every subsequent request returns the cached value without
contacting the device, and the entry is never invalidated. -/
theorem C4_truthy_cache (v : String) (h : strTruthy v = true)
    (dev1 dev2 : PromiseResult String String) (hdev : dev1 = .resolved v) :
    (getRevisionWithCache strTruthy none dev1).cacheAfter = some v
    ∧ (getRevisionWithCache strTruthy (some v) dev2).result = .resolved v
    ∧ (getRevisionWithCache strTruthy (some v) dev2).contactedDevice = false
    ∧ (getRevisionWithCache strTruthy (some v) dev2).cacheAfter = some v := by
  subst hdev
  refine ⟨rfl, ?_, ?_, ?_⟩ <;> simp [getRevisionWithCache, h]

theorem C4_truthy_cache_witness :
    (getRevisionWithCache strTruthy none (.resolved "abc123")).cacheAfter
        = some "abc123"
    ∧ (getRevisionWithCache strTruthy (some "abc123")
        (.rejected "gone")).result = .resolved "abc123"
    ∧ (getRevisionWithCache strTruthy (some "abc123")
        (.rejected "gone")).contactedDevice = false
    ∧ (getRevisionWithCache strTruthy (some "abc123")
        (.rejected "gone")).cacheAfter = some "abc123" :=
  C4_truthy_cache "abc123" (by decide) _ _ rfl

/-- Claim C9 (counterexample): chunked processing does NOT always equal
whole-content processing: the matching line `SourceStamp=ab` split across
the chunk boundary `SourceSt / amp=ab` is missed entirely by the chunked
scan but found by the accumulated scan. -/
theorem C9_counterexample :
    getGeckoRevisionFromIni "/tmp/platform.ini"
        ["SourceSt".toList, "amp=ab".toList]
      = .rejected "Unable to find revision in /tmp/platform.ini"
    ∧ getGeckoRevisionFromIni "/tmp/platform.ini"
        [(["SourceSt".toList, "amp=ab".toList] : List (List Char)).flatten]
      = .resolved (some ("ab".toList)) :=
  ⟨rfl, rfl⟩

/-- Claim C9 (amended): chunked processing equals whole-content processing
for every partition in which each non-final chunk ends at a line boundary
(ends with a newline); partitions that split a line across a boundary can
miss the key or truncate the value. -/
theorem C9_line_aligned (iniPath : String) (chunks : List (List Char))
    (h : ∀ ch ∈ chunks.dropLast, endsChar '\n' ch = true) :
    getGeckoRevisionFromIni iniPath chunks
      = getGeckoRevisionFromIni iniPath [chunks.flatten] := by
  unfold getGeckoRevisionFromIni
  rw [findSome_singleton, chunkedEqWhole chunks h]

theorem C9_line_aligned_witness :
    getGeckoRevisionFromIni "/tmp/platform.ini"
        ["FOO=1\n".toList, "SourceStamp=deadbeef".toList]
      = getGeckoRevisionFromIni "/tmp/platform.ini"
        [(["FOO=1\n".toList, "SourceStamp=deadbeef".toList]
            : List (List Char)).flatten] :=
  C9_line_aligned "/tmp/platform.ini" _ (by decide)

/-- Claim C7: the Archive Entry Extractor rejects with the not-found error
exactly when the full entry sequence contains no entry whose path equals
the target; the drained entries are exactly the non-matching ones, in
order; and when a first matching entry exists (the value of `find?`), the
promise settles resolved with that entry's stream. -/
theorem C7_zip_extractor (entries : List ZipEntry) (target : String) :
    ((readFileFromZip entries target).settled = .rejected "Zip file not found"
      ↔ ∀ x ∈ entries, x.path ≠ target)
    ∧ (readFileFromZip entries target).drained
        = entries.filter (fun x => decide (x.path ≠ target))
    ∧ ∀ e, entries.find? (fun x => decide (x.path = target)) = some e →
        (readFileFromZip entries target).settled = .resolved e := by
  cases hf : entries.find? (fun x => decide (x.path = target)) with
  | some e =>
    have hfold := zipFold_found target entries e [] hf
    have hmem : e ∈ entries := List.mem_of_find?_eq_some hf
    have hep : e.path = target := by
      have := List.find?_some hf
      simpa using this
    have hres : readFileFromZip entries target
        = ⟨true, .resolved e, entries.filter (fun x => decide (x.path ≠ target))⟩ := by
      unfold readFileFromZip
      rw [hfold]
      rfl
    refine ⟨?_, ?_, ?_⟩
    · rw [hres]
      constructor
      · intro hbad
        simp at hbad
      · intro hall
        exact absurd hep (hall e hmem)
    · rw [hres]
    · intro e2 he2
      have he : e = e2 := by simpa using he2
      subst he
      rw [hres]
  | none =>
    have hall : ∀ x ∈ entries, x.path ≠ target := by
      intro x hx
      have := List.find?_eq_none.mp hf x hx
      simpa using this
    have hfold := zipFold_noMatch target entries [] hall
    have hres : readFileFromZip entries target
        = ⟨false, .rejected "Zip file not found", entries⟩ := by
      unfold readFileFromZip
      rw [hfold]
      rfl
    refine ⟨?_, ?_, ?_⟩
    · rw [hres]
      simp only [true_iff]
      exact hall
    · rw [hres]
      have : entries.filter (fun x => decide (x.path ≠ target)) = entries :=
        List.filter_eq_self.mpr (fun x hx => by simpa using hall x hx)
      rw [this]
    · intro e2 he2
      exact Option.noConfusion he2

theorem C7_zip_extractor_witness :
    (readFileFromZip [ZipEntry.mk "a.txt" [[]], ZipEntry.mk "t.txt" [['x']]]
        "t.txt").settled = .resolved (ZipEntry.mk "t.txt" [['x']])
    ∧ (readFileFromZip [ZipEntry.mk "a.txt" [[]], ZipEntry.mk "t.txt" [['x']]]
        "t.txt").drained = [ZipEntry.mk "a.txt" [[]]] :=
  ⟨(C7_zip_extractor _ "t.txt").2.2 (ZipEntry.mk "t.txt" [['x']]) (by decide),
   by rw [(C7_zip_extractor _ "t.txt").2.1]; rfl⟩

/-- Claim C8: the XML scan resolves with the `REVISION` attribute value of
the first `PROJECT` element whose `NAME` attribute equals `gecko`
(earlier non-matching elements are ignored: `find?` returns the first
match), and it rejects with the not-found error exactly when the stream
ends with no such element. -/
theorem C8_xml_scanner (xmlPath : String) (nodes : List XmlNode) :
    (∀ n, nodes.find? isGeckoProject = some n →
      getGeckoRevisionFromXml xmlPath nodes = .resolved (n.attr "REVISION"))
    ∧ (getGeckoRevisionFromXml xmlPath nodes
        = .rejected ("Unable to find revision in " ++ xmlPath)
      ↔ nodes.find? isGeckoProject = none) := by
  constructor
  · intro n hn
    have hs := xmlFold_found nodes n hn ⟨none, .pending⟩ rfl
    exact xmlEnd_resolved xmlPath _ _ hs
  · constructor
    · intro hrej
      cases hf : nodes.find? isGeckoProject with
      | none => rfl
      | some n =>
        have hs := xmlFold_found nodes n hf ⟨none, .pending⟩ rfl
        have hres : getGeckoRevisionFromXml xmlPath nodes
            = .resolved (n.attr "REVISION") := xmlEnd_resolved xmlPath _ _ hs
        rw [hres] at hrej
        cases hrej
    · intro hf
      have hfold := xmlFold_noMatch nodes hf ⟨none, .pending⟩
      unfold getGeckoRevisionFromXml
      rw [hfold]
      rfl

theorem C8_xml_scanner_witness :
    getGeckoRevisionFromXml "/tmp/sources.xml"
        [XmlNode.mk "PROJECT" [("NAME", "other"), ("REVISION", "111")],
         XmlNode.mk "PROJECT" [("NAME", "gecko"), ("REVISION", "abc123")]]
      = .resolved (some "abc123") :=
  ((C8_xml_scanner "/tmp/sources.xml" _).1
    (XmlNode.mk "PROJECT" [("NAME", "gecko"), ("REVISION", "abc123")])
    (by decide)).trans rfl

/-- Claim C10: when the first matching `PROJECT` element with
`NAME = gecko` carries no `REVISION` attribute, the XML scan resolves with
the absent/undefined value (`none`) rather than rejecting with the
not-found error, even though the end-of-stream check sees a falsy `sha`
(resolve was called first, so the later reject is a no-op). -/
theorem C10_no_revision_attr (xmlPath : String) (nodes : List XmlNode)
    (n : XmlNode) (h1 : nodes.find? isGeckoProject = some n)
    (h2 : n.attr "REVISION" = none) :
    getGeckoRevisionFromXml xmlPath nodes = .resolved none
    ∧ getGeckoRevisionFromXml xmlPath nodes
        ≠ .rejected ("Unable to find revision in " ++ xmlPath) := by
  have hs := xmlFold_found nodes n h1 ⟨none, .pending⟩ rfl
  rw [h2] at hs
  have hres : getGeckoRevisionFromXml xmlPath nodes = .resolved none :=
    xmlEnd_resolved xmlPath _ _ hs
  refine ⟨hres, ?_⟩
  rw [hres]
  simp

theorem C10_no_revision_attr_witness :
    getGeckoRevisionFromXml "/tmp/sources.xml"
        [XmlNode.mk "PROJECT" [("NAME", "gecko")]] = .resolved none :=
  (C10_no_revision_attr "/tmp/sources.xml"
    [XmlNode.mk "PROJECT" [("NAME", "gecko")]]
    (XmlNode.mk "PROJECT" [("NAME", "gecko")]) (by decide) rfl).1

/-- Claim C6: the Location Fallback Resolver, over any candidate list of
length at least one: if the first candidate's retrieval succeeds no later
candidate is attempted; if every candidate fails, the resolver fails with
(at minimum) the last underlying error, having invoked the retriever
exactly once per candidate in declared order.  The last four conjuncts
check the two-candidate instances from the source (`pullApplicationZip`
and `pullB2GIni`) on the same two scenarios. -/
theorem C6_location_fallback {γ : Type} (retrieve : γ → Except String String)
    (c0 : γ) (rest : List γ) :
    (∀ a, retrieve c0 = .ok a →
       resolveFirst retrieve (c0 :: rest) = (.ok a, [c0]))
    ∧ ((∀ c ∈ c0 :: rest, ∃ e, retrieve c = .error e) →
        (resolveFirst retrieve (c0 :: rest)).2 = c0 :: rest
        ∧ ∀ cl el, (c0 :: rest).getLast? = some cl →
            retrieve cl = .error el →
            (resolveFirst retrieve (c0 :: rest)).1 = .error (some el))
    ∧ (∀ t r2, pullApplicationZip (.ok t) r2 = .resolved t)
    ∧ (∀ e1 e2, pullApplicationZip (.error e1) (.error e2) = .rejected e2)
    ∧ (∀ t r2, pullB2GIni (.ok t) r2 = .resolved (pathJoin t "application.ini"))
    ∧ (∀ e1 e2, pullB2GIni (.error e1) (.error e2) = .rejected e2) := by
  refine ⟨?_, resolveFirstAllFail retrieve rest c0,
    fun t r2 => rfl, fun e1 e2 => rfl, fun t r2 => rfl, fun e1 e2 => rfl⟩
  intro a ha
  cases rest with
  | nil => simp [resolveFirst, ha]
  | cons c1 rest2 => simp [resolveFirst, ha]

theorem C6_location_fallback_witness :
    (resolveFirst
        (fun n : Nat => if n = 0 then Except.error "e0" else Except.error "e1")
        [0, 1]).2 = [0, 1]
    ∧ (resolveFirst
        (fun n : Nat => if n = 0 then Except.error "e0" else Except.error "e1")
        [0, 1]).1 = .error (some "e1")
    ∧ resolveFirst
        (fun n : Nat => if n = 0 then Except.ok "/tmp/t" else Except.error "e1")
        [0, 1] = (.ok "/tmp/t", [0]) := by
  have hall : ∀ c ∈ [0, 1],
      ∃ e, (fun n : Nat =>
        if n = 0 then Except.error "e0" else Except.error "e1") c
          = Except.error (ε := String) (α := String) e := by
    intro c hc
    rcases List.mem_cons.mp hc with h | h
    · exact ⟨"e0", by subst h; rfl⟩
    · have h1 : c = 1 := by simpa using h
      exact ⟨"e1", by subst h1; rfl⟩
  have hfail := (C6_location_fallback
    (fun n : Nat => if n = 0 then Except.error "e0" else Except.error "e1")
    0 [1]).2.1 hall
  refine ⟨hfail.1, hfail.2 1 "e1" rfl rfl, ?_⟩
  exact (C6_location_fallback
    (fun n : Nat => if n = 0 then Except.ok "/tmp/t" else Except.error "e1")
    0 [1]).1 "/tmp/t" rfl

/-- Claim C5: the Gecko resolution state machine.  With a fresh cache:
the first step is always the `sources.xml` pull; when the pull succeeds
and the XML scan resolves, that value is the result and the INI fallback
never runs; when the pull succeeds but the scan rejects, the resolution
falls through to the INI fallback (`pullB2GIni` followed by the INI Line
Scanner) and its settlement is the result; when the pull itself fails, the
fallback runs directly (the scan never does); the `sources.xml` pull is
attempted exactly once in every trace; and when the fallback ran and
rejected, the whole resolution rejects with that error and nothing is
cached. -/
theorem C5_gecko_state_machine (xmlPull : Except String String)
    (xmlScan : String → PromiseResult String (Option (List Char)))
    (appIni platIni : Except String String)
    (fileChunks : String → List (List Char)) :
    ((getGeckoRevision revTruthy none xmlPull xmlScan
        (pullFromIni appIni platIni fileChunks)).2.head?
      = some GeckoStep.pullSourcesXml)
    ∧ (∀ t v, xmlPull = .ok t →
        xmlScan (pathJoin t "sources.xml") = .resolved v →
        (getGeckoRevision revTruthy none xmlPull xmlScan
            (pullFromIni appIni platIni fileChunks)).1.result = .resolved v
        ∧ (getGeckoRevision revTruthy none xmlPull xmlScan
            (pullFromIni appIni platIni fileChunks)).2
          = [GeckoStep.pullSourcesXml, GeckoStep.runXmlScan])
    ∧ (∀ t e, xmlPull = .ok t →
        xmlScan (pathJoin t "sources.xml") = .rejected e →
        (getGeckoRevision revTruthy none xmlPull xmlScan
            (pullFromIni appIni platIni fileChunks)).1.result
          = pullFromIni appIni platIni fileChunks
        ∧ (getGeckoRevision revTruthy none xmlPull xmlScan
            (pullFromIni appIni platIni fileChunks)).2
          = [GeckoStep.pullSourcesXml, GeckoStep.runXmlScan,
             GeckoStep.runIniFallback])
    ∧ (∀ e, xmlPull = .error e →
        (getGeckoRevision revTruthy none xmlPull xmlScan
            (pullFromIni appIni platIni fileChunks)).1.result
          = pullFromIni appIni platIni fileChunks
        ∧ (getGeckoRevision revTruthy none xmlPull xmlScan
            (pullFromIni appIni platIni fileChunks)).2
          = [GeckoStep.pullSourcesXml, GeckoStep.runIniFallback])
    ∧ ((getGeckoRevision revTruthy none xmlPull xmlScan
        (pullFromIni appIni platIni fileChunks)).2.count
          GeckoStep.pullSourcesXml = 1)
    ∧ (∀ e, pullFromIni appIni platIni fileChunks = .rejected e →
        GeckoStep.runIniFallback ∈
          (getGeckoRevision revTruthy none xmlPull xmlScan
            (pullFromIni appIni platIni fileChunks)).2 →
        (getGeckoRevision revTruthy none xmlPull xmlScan
            (pullFromIni appIni platIni fileChunks)).1.result = .rejected e
        ∧ (getGeckoRevision revTruthy none xmlPull xmlScan
            (pullFromIni appIni platIni fileChunks)).1.cacheAfter = none) := by
  generalize pullFromIni appIni platIni fileChunks = ini
  cases hxp : xmlPull with
  | ok t0 =>
    cases hscan : xmlScan (pathJoin t0 "sources.xml") with
    | resolved v0 =>
      have hG : getGeckoRevision revTruthy none (Except.ok t0) xmlScan ini
          = (⟨.resolved v0, some v0, true⟩,
             [GeckoStep.pullSourcesXml, GeckoStep.runXmlScan]) := by
        simp only [getGeckoRevision, geckoPipeline]
        rw [hscan]
        rfl
      rw [hG]
      refine ⟨rfl, ?_, ?_, ?_, rfl, ?_⟩
      · intro t v hok hres
        injection hok with ht
        subst ht
        rw [hscan] at hres
        injection hres with hv
        subst hv
        exact ⟨rfl, rfl⟩
      · intro t e hok hres
        injection hok with ht
        subst ht
        rw [hscan] at hres
        exact PromiseResult.noConfusion hres
      · intro e hok
        exact Except.noConfusion hok
      · intro e hini2 hmem
        simp at hmem
    | rejected e0 =>
      have hG : getGeckoRevision revTruthy none (Except.ok t0) xmlScan ini
          = (⟨ini, cacheUpdate none ini, true⟩,
             [GeckoStep.pullSourcesXml, GeckoStep.runXmlScan,
              GeckoStep.runIniFallback]) := by
        simp only [getGeckoRevision, geckoPipeline]
        rw [hscan]
        rfl
      rw [hG]
      refine ⟨rfl, ?_, ?_, ?_, rfl, ?_⟩
      · intro t v hok hres
        injection hok with ht
        subst ht
        rw [hscan] at hres
        exact PromiseResult.noConfusion hres
      · intro t e hok hres
        injection hok with ht
        subst ht
        rw [hscan] at hres
        injection hres with he
        subst he
        exact ⟨rfl, rfl⟩
      · intro e hok
        exact Except.noConfusion hok
      · intro e hini2 hmem
        subst hini2
        exact ⟨rfl, rfl⟩
    | pending =>
      have hG : getGeckoRevision revTruthy none (Except.ok t0) xmlScan ini
          = (⟨.pending, none, true⟩,
             [GeckoStep.pullSourcesXml, GeckoStep.runXmlScan]) := by
        simp only [getGeckoRevision, geckoPipeline]
        rw [hscan]
        rfl
      rw [hG]
      refine ⟨rfl, ?_, ?_, ?_, rfl, ?_⟩
      · intro t v hok hres
        injection hok with ht
        subst ht
        rw [hscan] at hres
        exact PromiseResult.noConfusion hres
      · intro t e hok hres
        injection hok with ht
        subst ht
        rw [hscan] at hres
        exact PromiseResult.noConfusion hres
      · intro e hok
        exact Except.noConfusion hok
      · intro e hini2 hmem
        simp at hmem
  | error e0 =>
    have hG : getGeckoRevision revTruthy none (Except.error e0) xmlScan ini
        = (⟨ini, cacheUpdate none ini, true⟩,
           [GeckoStep.pullSourcesXml, GeckoStep.runIniFallback]) := by
      simp only [getGeckoRevision, geckoPipeline]
      rfl
    rw [hG]
    refine ⟨rfl, ?_, ?_, ?_, rfl, ?_⟩
    · intro t v hok hres
      exact Except.noConfusion hok
    · intro t e hok hres
      exact Except.noConfusion hok
    · intro e hok
      exact ⟨rfl, rfl⟩
    · intro e hini2 hmem
      subst hini2
      exact ⟨rfl, rfl⟩

theorem C5_gecko_state_machine_witness :
    (getGeckoRevision revTruthy none (.error "no sources.xml")
        (fun _ => PromiseResult.pending)
        (pullFromIni (.error "no application.ini") (.error "no platform.ini")
          (fun _ => []))).1.result = .rejected "no platform.ini"
    ∧ (getGeckoRevision revTruthy none (.error "no sources.xml")
        (fun _ => PromiseResult.pending)
        (pullFromIni (.error "no application.ini") (.error "no platform.ini")
          (fun _ => []))).1.cacheAfter = none :=
  (C5_gecko_state_machine (.error "no sources.xml")
    (fun _ => PromiseResult.pending) (.error "no application.ini")
    (.error "no platform.ini") (fun _ => [])).2.2.2.2.2
    "no platform.ini" rfl (by decide)
